import Mathlib

/-!
Verification development for the `astrbot_mcgetter_enhanced` repository.

The definitions below are a shallow embedding of the pure data logic of
`src/script/json_operate.py` (registry store, trend store, cleanup policy)
and of the timeline-normalisation logic of `src/script/bar_chart.py`
(chart renderer).  Python machine integers are modelled as `Int`
(Python ints are unbounded); Python floor division `//` is `Int.fdiv`;
Python dicts keyed by strings are modelled as association lists in
insertion order with unique keys; fallible operations return `Bool × _`
(the boolean result together with the state that ends up persisted) or
`Option _`.
-/

namespace McGetter

/-- A trend entry, the dict shape used in `trends` histories:
`\x7b"ts": int, "count": int\x7d` (json_operate.py line 18). -/
structure TrendEntry where
  ts : Int
  count : Int
deriving Repr, DecidableEq

/-- `_hour_bucket` (json_operate.py lines 367-369): `int(ts // 3600 * 3600)`.
Python `//` is floor division, i.e. `Int.fdiv`. -/
def hour_bucket (ts : Int) : Int := ts.fdiv 3600 * 3600

/-- The retention trim at the end of `append_trend_point`
(json_operate.py lines 384-385): `if len(history) > 24: history[:] = history[-24:]`. -/
def trimTrend (l : List TrendEntry) : List TrendEntry :=
  if l.length > 24 then l.drop (l.length - 24) else l

/-- `append_trend_point` (json_operate.py lines 371-392), the pure mutation it
performs on one server's `history` list.  The code overwrites the last entry in
place when its hour bucket equals the new bucket (setting both `ts` and
`count`), which is `dropLast ++ [entry]`; otherwise it appends; then it trims. -/
def append_trend_point (history : List TrendEntry) (ts count : Int) : List TrendEntry :=
  let ts_h := hour_bucket ts
  let history' :=
    match history.getLast? with
    | some lastE =>
        if hour_bucket lastE.ts = ts_h then
          history.dropLast ++ [⟨ts_h, count⟩]
        else
          history ++ [⟨ts_h, count⟩]
    | none => history ++ [⟨ts_h, count⟩]
  trimTrend history'

/-- The spec's wording of `append_point` (spec §4.2): compute
`bucket = floor(timestamp / 3600) * 3600`; if the series' last entry has that
same bucket overwrite it in place with `count`, else append a new entry;
then retain only the most recent 24 entries (oldest dropped first). -/
def append_point_spec (history : List TrendEntry) (t c : Int) : List TrendEntry :=
  let bucket := t.fdiv 3600 * 3600
  let mutated : List TrendEntry :=
    match history.getLast? with
    | some lastE =>
        if lastE.ts.fdiv 3600 * 3600 = bucket then history.dropLast ++ [⟨bucket, c⟩]
        else history ++ [⟨bucket, c⟩]
    | none => [⟨bucket, c⟩]
  mutated.drop (mutated.length - 24)

/-- The series invariant of spec §3: entry timestamps (which are bucket
timestamps) strictly increase, at most one entry exists per hour bucket, and
the series holds at most 24 entries. -/
def trendInvariant (h : List TrendEntry) : Prop :=
  List.Pairwise (· < ·) (h.map (fun e => e.ts)) ∧
  List.Pairwise (· ≠ ·) (h.map (fun e => hour_bucket e.ts)) ∧
  h.length ≤ 24

instance (h : List TrendEntry) : Decidable (trendInvariant h) := by
  unfold trendInvariant; infer_instance

/-! ### Registry store (json_operate.py lines 177-365, 423-568) -/

/-- A server record (json_operate.py lines 239-247). -/
structure ServerRec where
  id : Int
  name : String
  host : String
  created_time : Int
  last_success_time : Option Int
  last_failed_time : Option Int
  failed_count : Int
deriving Repr, DecidableEq

/-- The persisted registry container (json_operate.py lines 13-20).  The
`servers` and `trends` dicts are modelled as insertion-ordered association
lists with unique keys; a `trends` value is its `history` list. -/
structure RegistryData where
  version : String
  next_id : Int
  servers : List (String × ServerRec)
  trends : List (String × List TrendEntry)
  last_cleanup : Option Int
deriving Repr, DecidableEq

/-- `get_server_by_name` (json_operate.py lines 177-192): iterate the servers
dict in order and return the first `(id, info)` whose `name` equals `name`
(exact `==` comparison). -/
def get_server_by_name (servers : List (String × ServerRec)) (name : String) :
    Option (String × ServerRec) :=
  servers.find? (fun p => p.2.name == name)

def parseIntDigits (l : List Char) : Int :=
  l.foldl (fun a c => a * 10 + ((c.toNat : Int) - 48)) 0

/-- Models Python `int(k)` applied to a registry key (json_operate.py line
222): parses an optionally negated run of decimal digits, `none` when the
key is not numeric (the code skips such keys). -/
def parseKey (s : String) : Option Int :=
  match s.toList with
  | [] => none
  | '-' :: rest =>
      if rest ≠ [] ∧ rest.all Char.isDigit then some (-(parseIntDigits rest)) else none
  | l => if l.all Char.isDigit then some (parseIntDigits l) else none

/-- The `used_ids` set built by `add_data` (json_operate.py lines 218-225):
every server key that parses as an integer.  Python builds a `set`; a list
has the same membership and maximum, which is all the code uses. -/
def usedIds (servers : List (String × ServerRec)) : List Int :=
  (servers.map (fun p => p.1)).filterMap parseKey

/-- The `while new_id in used_ids: new_id += 1` loop of `add_data`
(json_operate.py lines 227-229), with explicit fuel; `usedIds.length + 1`
steps always suffice to leave the loop (see `alloc_loop_spec`). -/
def alloc_loop (used : List Int) : Nat → Int → Int
  | 0, n => n
  | Nat.succ fuel, n => if n ∈ used then alloc_loop used fuel (n + 1) else n

/-- `add_data` (json_operate.py lines 196-254): decline on duplicate name,
else allocate the smallest free positive id, recompute `next_id`, insert the
new record and persist.  The returned pair is (success, persisted state);
on decline nothing is written, so the state component is the input. -/
def add_data (data : RegistryData) (name host : String) (now : Int) :
    Bool × RegistryData :=
  match get_server_by_name data.servers name with
  | some _ => (false, data)
  | none =>
    let used := usedIds data.servers
    let new_id := alloc_loop used (used.length + 1) 1
    let max_used := used.max?.getD 0
    let newRec : ServerRec := ⟨new_id, name, host, now, some now, none, 0⟩
    (true, { data with
        next_id := max max_used new_id + 1,
        servers := data.servers ++ [(toString new_id, newRec)] })

/-- Demo record used by concrete witnesses. -/
def demoRec (i : Int) (nm : String) : ServerRec :=
  ⟨i, nm, "example.com", 0, some 0, none, 0⟩

/-- A registry that held ids 1,2,3 and then had id 2 deleted. -/
def demoData3 : RegistryData :=
  ⟨"2.3", 4, [("1", demoRec 1 "A"), ("3", demoRec 3 "C")], [], none⟩

/-! ### Cleanup policy (json_operate.py lines 476-539) -/

/-- `AUTO_CLEANUP_DAYS` (json_operate.py line 23). -/
def AUTO_CLEANUP_DAYS : Int := 10

/-- The latest trend timestamp consulted by the cleanup sweep
(json_operate.py lines 505-511): `hist[-1]["ts"]` when the server has
history, else 0. -/
def latestTrendTs (trends : List (String × List TrendEntry)) (sid : String) : Int :=
  match (((trends.find? (fun p => p.1 == sid)).map (fun p => p.2)).getD []).getLast? with
  | some e => e.ts
  | none => 0

/-- `effective_last_ok` (json_operate.py line 513). -/
def effectiveLastOk (r : ServerRec) (trends : List (String × List TrendEntry))
    (sid : String) : Int :=
  max (r.last_success_time.getD 0) (latestTrendTs trends sid)

/-- `auto_cleanup_servers` (json_operate.py lines 476-539): mark every server
whose `effective_last_ok` is before `now - 10 days`, delete the marked ones,
and set `last_cleanup := now` (with a persist) only when something was
deleted.  Returns (deleted servers, persisted state). -/
def auto_cleanup_servers (data : RegistryData) (now : Int) :
    List (String × ServerRec) × RegistryData :=
  let cutoff := now - AUTO_CLEANUP_DAYS * 24 * 3600
  let toDelete := data.servers.filter
    (fun p => effectiveLastOk p.2 data.trends p.1 < cutoff)
  let kept := data.servers.filter
    (fun p => ¬ (effectiveLastOk p.2 data.trends p.1 < cutoff))
  if toDelete.isEmpty then (toDelete, { data with servers := kept })
  else (toDelete, { data with servers := kept, last_cleanup := some now })

/-- Registry used by the cleanup witness: server "1" is stale by
`last_success_time` but has a fresh trend sample; server "2" has neither. -/
def demoCleanupData : RegistryData :=
  ⟨"2.3", 3,
   [("1", demoRec 1 "A"), ("2", demoRec 2 "B")],
   [("1", [⟨500000, 7⟩])], none⟩

/-! ### Identifier resolution and the operations using it -/

/-- The id-then-name resolution implemented identically in `get_server_info`
(json_operate.py lines 556-563), `del_data` (272-287), `update_data`
(312-324) and `update_server_status` (443-451): an exact match against the
server id keys (`identifier in servers`) is tried first, and only on failure
an exact match against server names. -/
def resolve_identifier (servers : List (String × ServerRec)) (identifier : String) :
    Option (String × ServerRec) :=
  match servers.find? (fun p => p.1 == identifier) with
  | some p => some p
  | none => get_server_by_name servers identifier

/-- `get_server_info` (json_operate.py lines 541-568). -/
def get_server_info (data : RegistryData) (identifier : String) : Option ServerRec :=
  (resolve_identifier data.servers identifier).map (fun p => p.2)

/-- `del_data` (json_operate.py lines 256-293): resolve id-first, delete the
resolved dict entry and persist; on not-found return false, state unchanged. -/
def del_data (data : RegistryData) (identifier : String) : Bool × RegistryData :=
  match resolve_identifier data.servers identifier with
  | some p =>
      (true, { data with servers := data.servers.eraseP (fun q => q.1 == p.1) })
  | none => (false, data)

/-- `update_data` (json_operate.py lines 295-348): resolve id-first; decline
when a truthy (non-empty) changed new name belongs to a different server;
else overwrite the provided fields in the resolved record and persist. -/
def update_data (data : RegistryData) (identifier : String)
    (new_name new_host : Option String) : Bool × RegistryData :=
  match resolve_identifier data.servers identifier with
  | none => (false, data)
  | some (sid, r) =>
    let conflict : Bool :=
      match new_name with
      | some nn =>
          if nn ≠ "" ∧ nn ≠ r.name then
            match get_server_by_name data.servers nn with
            | some q => q.1 != sid
            | none => false
          else false
      | none => false
    if conflict then (false, data)
    else
      let r1 := match new_name with
        | some nn => { r with name := nn }
        | none => r
      let r2 := match new_host with
        | some nh => { r1 with host := nh }
        | none => r1
      (true, { data with
        servers := data.servers.map (fun q => if q.1 == sid then (sid, r2) else q) })

/-- `update_server_status` (json_operate.py lines 423-474): resolve id-first;
on success stamp `last_success_time := now` and reset `failed_count`; on
failure stamp `last_failed_time := now` and increment `failed_count`. -/
def update_server_status (data : RegistryData) (identifier : String)
    (success : Bool) (now : Int) : Bool × RegistryData :=
  match resolve_identifier data.servers identifier with
  | none => (false, data)
  | some (sid, r) =>
    let r2 := if success then
        { r with last_success_time := some now, failed_count := 0 }
      else
        { r with last_failed_time := some now, failed_count := r.failed_count + 1 }
    (true, { data with
      servers := data.servers.map (fun q => if q.1 == sid then (sid, r2) else q) })

/-- Registry with a server whose id is "5" and a different server named "5". -/
def demoData5 : RegistryData :=
  ⟨"2.3", 8, [("5", demoRec 5 "srvA"), ("7", demoRec 7 "5")], [], none⟩

/-! ### Trend history reads (json_operate.py lines 394-405) -/

/-- `get_trend_history` (json_operate.py lines 394-405), parameterised by the
outcome of the underlying `read_json`: a raised read error hits the `except`
branch which returns `none`; otherwise the server's history (`[]` when the
server has no series) is sliced to its last `hours` entries when `hours > 0`. -/
def get_trend_history (readResult : Except String RegistryData) (server_id : String)
    (hours : Int) : Option (List TrendEntry) :=
  match readResult with
  | .error _ => none
  | .ok data =>
    let hist := ((data.trends.find? (fun p => p.1 == server_id)).map
      (fun p => p.2)).getD []
    some (if hours > 0 then hist.drop (hist.length - hours.toNat) else hist)

/-! ### Python dicts over integer keys, as insertion-ordered association
lists.  Used by the legacy-trend merge of `read_json` and the bucket map of
`generate_bar_chart_image`. -/

/-- A Python dict assignment `m[k] = v`: overwrite in place when the key
exists (keeping insertion order), else append at the end. -/
def dictUpsert (m : List (Int × Int)) (k v : Int) : List (Int × Int) :=
  if m.any (fun p => p.1 == k) then
    m.map (fun p => if p.1 == k then (k, v) else p)
  else m ++ [(k, v)]

/-- Sequential dict assignments `for p in l: m[p[0]] = p[1]`. -/
def dictInsertAll (m : List (Int × Int)) (l : List (Int × Int)) : List (Int × Int) :=
  l.foldl (fun acc p => dictUpsert acc p.1 p.2) m

/-- Dict lookup `m.get(k)`. -/
def dictLookup (m : List (Int × Int)) (k : Int) : Option Int :=
  (m.find? (fun p => p.1 == k)).map (fun p => p.2)

/-- The value of the last pair with first component `k` in a raw sequence of
pairs: what a dict built from that sequence stores at `k`. -/
def lastVal (l : List (Int × Int)) (k : Int) : Option Int :=
  ((l.filter (fun p => p.1 == k)).getLast?).map (fun p => p.2)

/-- Python `sorted` on dict items (pairs).  Keys are unique wherever this is
used, so comparing keys only agrees with Python's lexicographic tuple order. -/
def sortPairs (l : List (Int × Int)) : List (Int × Int) :=
  List.insertionSort (fun a b => a.1 ≤ b.1) l

/-- Python `sorted` on integer keys. -/
def sortInts (l : List Int) : List Int :=
  List.insertionSort (fun a b : Int => a ≤ b) l

instance : IsTotal (Int × Int) (fun a b => a.1 ≤ b.1) :=
  ⟨fun a b => le_total a.1 b.1⟩

instance : IsTrans (Int × Int) (fun a b => a.1 ≤ b.1) :=
  ⟨fun _ _ _ hab hbc => le_trans hab hbc⟩

instance : IsAntisymm (Int × Int) (fun a b => a.1 < b.1) :=
  ⟨fun a _ hab hba => absurd (lt_trans hab hba) (lt_irrefl a.1)⟩

instance : IsTotal Int (fun a b : Int => a ≤ b) := ⟨le_total⟩

instance : IsTrans Int (fun a b : Int => a ≤ b) := ⟨fun _ _ _ => le_trans⟩

/-- The legacy-trend fold of `read_json` (json_operate.py lines 143-160), as
the pure transformation of the server's already-stored multi-series history
`oldHist` merged with the legacy `trend.history` list `legacyHist`: build
`existing` as a dict keyed by exact `int(h["ts"])` from the stored history
(later duplicates overwrite), overwrite with every legacy entry, take the
items sorted by timestamp, and keep only the last 24. -/
def migrate_trend (oldHist legacyHist : List TrendEntry) : List TrendEntry :=
  let existing := dictInsertAll [] (oldHist.map (fun h => (h.ts, h.count)))
  let existing2 := dictInsertAll existing (legacyHist.map (fun h => (h.ts, h.count)))
  let merged := (sortPairs existing2).map (fun p => (⟨p.1, p.2⟩ : TrendEntry))
  trimTrend merged

/-- The most recent count attached to timestamp `t` in a raw entry sequence. -/
def lastCountAt (l : List TrendEntry) (t : Int) : Option Int :=
  ((l.filter (fun e => e.ts == t)).getLast?).map (fun e => e.count)

/-- The amended description of the legacy merge: one entry per exact
timestamp (a legacy entry replaces a stored entry with the identical
timestamp, the newest write winning), sorted ascending by timestamp, and
truncated to the most recent 24 entries. -/
def migrate_trend_spec (oldHist legacyHist : List TrendEntry) : List TrendEntry :=
  let all := oldHist ++ legacyHist
  let merged := (sortInts ((all.map (fun e => e.ts)).dedup)).map
    (fun t => (⟨t, (lastCountAt all t).getD 0⟩ : TrendEntry))
  merged.drop (merged.length - 24)

/-! ### Chart renderer timeline (bar_chart.py lines 146-183) -/

/-- The `raw` bucket dict of `generate_bar_chart_image` (bar_chart.py lines
157-162): for each entry in order, skip it when its `ts` is falsy (0), else
assign `raw[hour_bucket(ts)] = cnt` (later entries overwrite). -/
def chartRaw (history : List TrendEntry) : List (Int × Int) :=
  history.foldl
    (fun m d => if d.ts = 0 then m else dictUpsert m (hour_bucket d.ts) d.count) []

/-- The hourly tick loop `while cur <= end_ts: timeline.append(cur); cur += 3600`
(bar_chart.py lines 177-182). -/
def hourlyTicks (startTs endTs : Int) : List Int :=
  (List.range (((endTs - startTs).fdiv 3600 + 1).toNat)).map
    (fun i => startTs + 3600 * (i : Int))

/-- The pure timeline/count computation of `generate_bar_chart_image`
(bar_chart.py lines 146-183).  `none` models the two blank-canvas early
returns (empty history; or `raw` empty because no entry had a truthy `ts`);
otherwise the (timeline, counts) driving the bars: `start`/`end` are the
first/last sorted bucket keys, `start` is clamped to the `max(1, hrs)`-hour
window ending at `end`, and each tick reads `raw.get(ts, 0)`. -/
def chartTimeline (history : List TrendEntry) (hrs : Int) :
    Option (List Int × List Int) :=
  if history.isEmpty then none
  else
    let raw := chartRaw history
    if raw.isEmpty then none
    else
      let keys := sortInts (raw.map (fun p => p.1))
      let start_ts := keys.head?.getD 0
      let end_ts := keys.getLast?.getD 0
      let window_hours := max 1 hrs
      let start2 := if end_ts - start_ts > (window_hours - 1) * 3600
        then end_ts - (window_hours - 1) * 3600 else start_ts
      let timeline := hourlyTicks start2 end_ts
      let counts := timeline.map (fun t => (dictLookup raw t).getD 0)
      some (timeline, counts)

/-- The claim's description of the chart timeline: bucket every entry to its
hour (duplicate buckets keep the latest value), take `[start, end]` as the
min/max bucket present, clamp `start` to `max(start, end-(window_hours-1)*3600)`,
materialise every hourly tick in `[start, end]` inclusive and fill hours with
no bucketed value with count 0. -/
def chartTimelineClaim (history : List TrendEntry) (window_hours : Int) :
    List Int × List Int :=
  let buckets := history.map (fun e => hour_bucket e.ts)
  let start_ts := (buckets.min?).getD 0
  let end_ts := (buckets.max?).getD 0
  let start2 := max start_ts (end_ts - (window_hours - 1) * 3600)
  let timeline := hourlyTicks start2 end_ts
  let counts := timeline.map (fun t =>
    (((history.filter (fun e => hour_bucket e.ts == t)).getLast?).map
      (fun e => e.count)).getD 0)
  (timeline, counts)

instance : Std.Antisymm (fun a b : Int => a ≤ b) := ⟨fun h1 h2 => le_antisymm h1 h2⟩

/-! ### Theorems -/

lemma hour_bucket_le (t : Int) : hour_bucket t ≤ t := by
  unfold hour_bucket
  rw [Int.fdiv_eq_ediv _ (by norm_num)]
  exact Int.ediv_mul_le t (by norm_num)

lemma lt_hour_bucket_add (t : Int) : t < hour_bucket t + 3600 := by
  unfold hour_bucket
  rw [Int.fdiv_eq_ediv _ (by norm_num)]
  have h := Int.lt_ediv_add_one_mul_self t (b := 3600) (by norm_num)
  linarith

lemma hour_bucket_mono {a b : Int} (h : a ≤ b) : hour_bucket a ≤ hour_bucket b := by
  unfold hour_bucket
  rw [Int.fdiv_eq_ediv _ (by norm_num), Int.fdiv_eq_ediv _ (by norm_num)]
  have h2 := Int.ediv_le_ediv (c := 3600) (by norm_num) h
  linarith

lemma hour_bucket_idem (t : Int) : hour_bucket (hour_bucket t) = hour_bucket t := by
  unfold hour_bucket
  rw [Int.fdiv_eq_ediv _ (by norm_num), Int.fdiv_eq_ediv _ (by norm_num),
    Int.mul_ediv_cancel _ (by norm_num)]

lemma hour_bucket_add_le_of_lt {a b : Int} (h : hour_bucket a < hour_bucket b) :
    hour_bucket a + 3600 ≤ hour_bucket b := by
  unfold hour_bucket at *
  have hx : a.fdiv 3600 < b.fdiv 3600 := by nlinarith
  nlinarith

lemma lt_of_hour_bucket_lt {a b : Int} (h : hour_bucket a < hour_bucket b) : a < b :=
  calc a < hour_bucket a + 3600 := lt_hour_bucket_add a
    _ ≤ hour_bucket b := hour_bucket_add_le_of_lt h
    _ ≤ b := hour_bucket_le b

lemma trimTrend_eq_drop (l : List TrendEntry) :
    trimTrend l = l.drop (l.length - 24) := by
  unfold trimTrend
  split
  · rfl
  · have : l.length - 24 = 0 := by omega
    rw [this, List.drop_zero]

lemma trimTrend_length_le (l : List TrendEntry) : (trimTrend l).length ≤ 24 := by
  unfold trimTrend
  split
  · simp only [List.length_drop]; omega
  · omega

lemma trendInvariant_trim (l : List TrendEntry)
    (h1 : List.Pairwise (· < ·) (l.map (fun e => e.ts)))
    (h2 : List.Pairwise (· ≠ ·) (l.map (fun e => hour_bucket e.ts))) :
    trendInvariant (trimTrend l) := by
  refine ⟨?_, ?_, trimTrend_length_le l⟩
  · rw [trimTrend_eq_drop]
    exact h1.sublist ((List.drop_sublist _ _).map _)
  · rw [trimTrend_eq_drop]
    exact h2.sublist ((List.drop_sublist _ _).map _)

/-- Shape of the `append_trend_point` result: for any timestamp with the same
hour bucket, the result is a fixed prefix (independent of the count) followed
by the single fresh entry, and has room under the retention bound. -/
lemma append_trend_point_form (h : List TrendEntry) (t : Int) :
    ∃ (A : List TrendEntry) (k : Nat), k ≤ A.length ∧ (A.length + 1) - k ≤ 24 ∧
      ∀ t' c', hour_bucket t' = hour_bucket t →
        append_trend_point h t' c' = A.drop k ++ [⟨hour_bucket t', c'⟩] := by
  classical
  cases hL : h.getLast? with
  | none =>
    have h0 : h = [] := List.getLast?_eq_none_iff.mp hL
    subst h0
    refine ⟨[], 0, by simp, by simp, ?_⟩
    intro t' c' _
    simp [append_trend_point, trimTrend]
  | some lastE =>
    by_cases hb : hour_bucket lastE.ts = hour_bucket t
    · refine ⟨h.dropLast, h.dropLast.length + 1 - 24, by omega, by omega, ?_⟩
      intro t' c' ht'
      have hcond : hour_bucket lastE.ts = hour_bucket t' := by rw [ht']; exact hb
      simp only [append_trend_point, hL, if_pos hcond]
      have hlen : (h.dropLast ++ [(⟨hour_bucket t', c'⟩ : TrendEntry)]).length - 24
          = h.dropLast.length + 1 - 24 := by simp
      rw [trimTrend_eq_drop, hlen, List.drop_append_of_le_length (by omega)]
    · refine ⟨h, h.length + 1 - 24, by omega, by omega, ?_⟩
      intro t' c' ht'
      have hcond : ¬ hour_bucket lastE.ts = hour_bucket t' := by rw [ht']; exact hb
      simp only [append_trend_point, hL, if_neg hcond]
      have hlen : (h ++ [(⟨hour_bucket t', c'⟩ : TrendEntry)]).length - 24
          = h.length + 1 - 24 := by simp
      rw [trimTrend_eq_drop, hlen, List.drop_append_of_le_length (by omega)]

/-- C1: `append_trend_point` computes the bucket `floor(t/3600)*3600`;
if the series' last entry has that same bucket it is overwritten in place with
the new count, otherwise a new entry is appended; afterwards the series is
trimmed to its most recent 24 entries (oldest dropped first).  Stated as an
equality with the spec-worded model, together with the spec's same-hour
overwrite property: a second append in the same hour bucket replaces the
first, leaving exactly the series the second append alone would produce. -/
theorem append_trend_point_refines_spec :
    (∀ (h : List TrendEntry) (t c : Int),
        append_trend_point h t c = append_point_spec h t c) ∧
    (∀ (h : List TrendEntry) (t₁ t₂ c₁ c₂ : Int),
        hour_bucket t₁ = hour_bucket t₂ →
        append_trend_point (append_trend_point h t₁ c₁) t₂ c₂ =
          append_trend_point h t₂ c₂) := by
  constructor
  · intro h t c
    unfold append_trend_point append_point_spec
    rw [trimTrend_eq_drop]
    cases hL : h.getLast? with
    | none =>
      have h0 : h = [] := List.getLast?_eq_none_iff.mp hL
      subst h0
      simp [hour_bucket]
    | some lastE =>
      simp only [hL, hour_bucket]
  · intro h t₁ t₂ c₁ c₂ hb
    obtain ⟨A, k, hk, hlen, hform⟩ := append_trend_point_form h t₂
    have h1 : append_trend_point h t₁ c₁ = A.drop k ++ [⟨hour_bucket t₁, c₁⟩] :=
      hform t₁ c₁ hb
    have h2 : append_trend_point h t₂ c₂ = A.drop k ++ [⟨hour_bucket t₂, c₂⟩] :=
      hform t₂ c₂ rfl
    rw [h1, h2]
    have hD : (A.drop k).length + 1 ≤ 24 := by
      rw [List.length_drop]; omega
    have hcond : hour_bucket (⟨hour_bucket t₁, c₁⟩ : TrendEntry).ts = hour_bucket t₂ := by
      show hour_bucket (hour_bucket t₁) = hour_bucket t₂
      rw [hour_bucket_idem, hb]
    simp only [append_trend_point, List.getLast?_concat, if_pos hcond,
      List.dropLast_concat]
    unfold trimTrend
    rw [if_neg (by simp only [List.length_append, List.length_cons, List.length_nil]; omega)]

/-- C1 witness: two appends with timestamps 10 and 20 (both in hour bucket 0)
collapse to the single entry the later append would produce. -/
theorem append_trend_point_refines_spec_witness :
    hour_bucket 10 = hour_bucket 20 ∧
      append_trend_point (append_trend_point [] 10 1) 20 2 =
        append_trend_point [] 20 2 :=
  ⟨by decide, append_trend_point_refines_spec.2 [] 10 20 1 2 (by decide)⟩

/-- C2 counterexample: a series satisfying the invariant, for which
`append_trend_point` with a timestamp earlier than the last entry produces a
series whose bucket timestamps are not strictly increasing, so the invariant
is not preserved for arbitrary timestamps. -/
theorem append_trend_point_out_of_order_counterexample :
    trendInvariant [⟨7200, 5⟩] ∧
      ¬ trendInvariant (append_trend_point [⟨7200, 5⟩] 0 1) := by decide

/-- C2 (amended): the 24-entry bound is preserved by every append, and the
full series invariant (strictly increasing bucket timestamps, at most one
entry per hour, at most 24 entries) is preserved whenever the appended
timestamp's hour bucket is at least the last entry's hour bucket — in
particular for the monotone timestamps the samplers supply.  An append whose
bucket precedes the last entry's bucket can break strict ordering. -/
theorem append_trend_point_invariant (h : List TrendEntry) (t c : Int) :
    (append_trend_point h t c).length ≤ 24 ∧
    (trendInvariant h →
      (∀ e, h.getLast? = some e → hour_bucket e.ts ≤ hour_bucket t) →
      trendInvariant (append_trend_point h t c)) := by
  constructor
  · unfold append_trend_point
    exact trimTrend_length_le _
  · rintro ⟨hts, hbk, _hlen⟩ hmono
    cases hL : h.getLast? with
    | none =>
      have h0 : h = [] := List.getLast?_eq_none_iff.mp hL
      subst h0
      simp [append_trend_point, trimTrend, trendInvariant]
    | some lastE =>
      obtain ⟨ys, rfl⟩ := List.getLast?_eq_some_iff.mp hL
      have hlast : hour_bucket lastE.ts ≤ hour_bucket t := hmono lastE hL
      have hts' := hts
      have hbk' := hbk
      rw [List.map_append, List.pairwise_append] at hts' hbk'
      obtain ⟨hts_ys, -, hts_lt⟩ := hts'
      obtain ⟨hbk_ys, -, hbk_ne⟩ := hbk'
      have hyslt : ∀ e ∈ ys, e.ts < lastE.ts := by
        intro e he
        exact hts_lt _ (List.mem_map_of_mem _ he) _ (by simp)
      have hysbk : ∀ e ∈ ys, hour_bucket e.ts < hour_bucket lastE.ts := by
        intro e he
        exact lt_of_le_of_ne (hour_bucket_mono (hyslt e he).le)
          (hbk_ne _ (List.mem_map_of_mem _ he) _ (by simp))
      have hysb : ∀ e ∈ ys, e.ts < hour_bucket t := by
        intro e he
        have h1 : hour_bucket e.ts < hour_bucket t :=
          lt_of_lt_of_le (hysbk e he) hlast
        calc e.ts < hour_bucket e.ts + 3600 := lt_hour_bucket_add _
          _ ≤ hour_bucket t := hour_bucket_add_le_of_lt h1
      unfold append_trend_point
      simp only [hL]
      by_cases hcase : hour_bucket lastE.ts = hour_bucket t
      · rw [if_pos hcase, List.dropLast_concat]
        refine trendInvariant_trim _ ?_ ?_
        · rw [List.map_append, List.pairwise_append]
          refine ⟨hts_ys, by simp, ?_⟩
          intro a ha b hb
          simp only [List.map_cons, List.map_nil, List.mem_singleton] at hb
          subst hb
          obtain ⟨e, he, rfl⟩ := List.mem_map.mp ha
          exact hysb e he
        · rw [List.map_append, List.pairwise_append]
          refine ⟨hbk_ys, by simp, ?_⟩
          intro a ha b hb
          simp only [List.map_cons, List.map_nil, List.mem_singleton] at hb
          subst hb
          obtain ⟨e, he, rfl⟩ := List.mem_map.mp ha
          show hour_bucket e.ts ≠ hour_bucket (hour_bucket t)
          rw [hour_bucket_idem]
          exact ne_of_lt (lt_of_lt_of_le (hysbk e he) hlast)
      · rw [if_neg hcase]
        have hblt : hour_bucket lastE.ts < hour_bucket t := lt_of_le_of_ne hlast hcase
        have hlastlt : lastE.ts < hour_bucket t :=
          lt_of_lt_of_le (lt_hour_bucket_add _) (hour_bucket_add_le_of_lt hblt)
        have hall_lt : ∀ e ∈ ys ++ [lastE], e.ts < hour_bucket t := by
          intro e he
          rcases List.mem_append.mp he with he | he
          · exact lt_trans (hyslt e he) hlastlt
          · simp only [List.mem_singleton] at he
            subst he; exact hlastlt
        have hall_bk : ∀ e ∈ ys ++ [lastE], hour_bucket e.ts < hour_bucket t := by
          intro e he
          rcases List.mem_append.mp he with he | he
          · exact lt_trans (hysbk e he) hblt
          · simp only [List.mem_singleton] at he
            subst he; exact hblt
        refine trendInvariant_trim _ ?_ ?_
        · rw [List.map_append, List.pairwise_append]
          refine ⟨hts, by simp, ?_⟩
          intro a ha b hb
          simp only [List.map_cons, List.map_nil, List.mem_singleton] at hb
          subst hb
          obtain ⟨e, he, rfl⟩ := List.mem_map.mp ha
          exact hall_lt e he
        · rw [List.map_append, List.pairwise_append]
          refine ⟨hbk, by simp, ?_⟩
          intro a ha b hb
          simp only [List.map_cons, List.map_nil, List.mem_singleton] at hb
          subst hb
          obtain ⟨e, he, rfl⟩ := List.mem_map.mp ha
          show hour_bucket e.ts ≠ hour_bucket (hour_bucket t)
          rw [hour_bucket_idem]
          exact ne_of_lt (hall_bk e he)

/-- C2 witness: an in-order append onto a well-formed one-entry series keeps
the bound and the invariant. -/
theorem append_trend_point_invariant_witness :
    (append_trend_point [⟨3600, 2⟩] 7300 9).length ≤ 24 ∧
      trendInvariant (append_trend_point [⟨3600, 2⟩] 7300 9) :=
  ⟨(append_trend_point_invariant [⟨3600, 2⟩] 7300 9).1,
    (append_trend_point_invariant [⟨3600, 2⟩] 7300 9).2 (by decide)
      (by intro e he; simp at he; subst he; decide)⟩

lemma filter_ge_length_lt {l : List Int} {n : Int} (hn : n ∈ l) :
    (l.filter fun x => decide (n + 1 ≤ x)).length <
      (l.filter fun x => decide (n ≤ x)).length := by
  induction l with
  | nil => cases hn
  | cons a t ih =>
    have hmono : (t.filter fun x => decide (n + 1 ≤ x)).length ≤
        (t.filter fun x => decide (n ≤ x)).length :=
      (List.monotone_filter_right t (fun x hx => by
        simp only [decide_eq_true_eq] at hx ⊢; omega)).length_le
    rcases List.mem_cons.mp hn with rfl | hmem
    · have e1 : List.filter (fun x => decide (n ≤ x)) (n :: t)
          = n :: List.filter (fun x => decide (n ≤ x)) t := by
        simp [List.filter_cons]
      have e2 : List.filter (fun x => decide (n + 1 ≤ x)) (n :: t)
          = List.filter (fun x => decide (n + 1 ≤ x)) t := by
        simp [List.filter_cons, show ¬ (n + 1 ≤ n) by omega]
      rw [e1, e2, List.length_cons]
      omega
    · have hlt := ih hmem
      by_cases hc : (n + 1 : Int) ≤ a
      · have hc2 : n ≤ a := by omega
        have e1 : List.filter (fun x => decide (n ≤ x)) (a :: t)
            = a :: List.filter (fun x => decide (n ≤ x)) t := by
          simp [List.filter_cons, hc2]
        have e2 : List.filter (fun x => decide (n + 1 ≤ x)) (a :: t)
            = a :: List.filter (fun x => decide (n + 1 ≤ x)) t := by
          simp [List.filter_cons, hc]
        rw [e1, e2, List.length_cons, List.length_cons]
        omega
      · by_cases hc2 : n ≤ a
        · have e1 : List.filter (fun x => decide (n ≤ x)) (a :: t)
              = a :: List.filter (fun x => decide (n ≤ x)) t := by
            simp [List.filter_cons, hc2]
          have e2 : List.filter (fun x => decide (n + 1 ≤ x)) (a :: t)
              = List.filter (fun x => decide (n + 1 ≤ x)) t := by
            simp [List.filter_cons, hc]
          rw [e1, e2, List.length_cons]
          omega
        · have e1 : List.filter (fun x => decide (n ≤ x)) (a :: t)
              = List.filter (fun x => decide (n ≤ x)) t := by
            simp [List.filter_cons, hc2]
          have e2 : List.filter (fun x => decide (n + 1 ≤ x)) (a :: t)
              = List.filter (fun x => decide (n + 1 ≤ x)) t := by
            simp [List.filter_cons, hc]
          rw [e1, e2]
          omega

/-- The allocation loop returns the smallest integer `≥ n` not in `used`,
given enough fuel. -/
lemma alloc_loop_spec (used : List Int) :
    ∀ (fuel : Nat) (n : Int),
      (used.filter fun x => decide (n ≤ x)).length < fuel →
      alloc_loop used fuel n ∉ used ∧ n ≤ alloc_loop used fuel n ∧
        ∀ m : Int, n ≤ m → m < alloc_loop used fuel n → m ∈ used := by
  intro fuel
  induction fuel with
  | zero => exact fun n h => absurd h (Nat.not_lt_zero _)
  | succ f ih =>
    intro n h
    by_cases hn : n ∈ used
    · have hbound : (used.filter fun x => decide (n + 1 ≤ x)).length < f := by
        have := filter_ge_length_lt hn
        omega
      obtain ⟨h1, h2, h3⟩ := ih (n + 1) hbound
      simp only [alloc_loop, if_pos hn]
      refine ⟨h1, by omega, ?_⟩
      intro m hm1 hm2
      by_cases hmn : m = n
      · subst hmn; exact hn
      · exact h3 m (by omega) hm2
    · simp only [alloc_loop, if_neg hn]
      exact ⟨hn, le_refl n, fun m hm1 hm2 => absurd (lt_of_le_of_lt hm1 hm2) (lt_irrefl n)⟩

/-- C3: a successful `add_data` assigns the new server the smallest positive
integer not already used as a server id (hole-filling), stores the new record
under that id, and sets `next_id` to `max(used ids, newly assigned id) + 1`. -/
theorem add_data_allocates_smallest (data : RegistryData) (name host : String)
    (now : Int) (hfresh : get_server_by_name data.servers name = none) :
    let used := usedIds data.servers
    let nid := alloc_loop used (used.length + 1) 1
    (add_data data name host now).1 = true ∧
    (add_data data name host now).2.servers =
      data.servers ++ [(toString nid, ⟨nid, name, host, now, some now, none, 0⟩)] ∧
    nid ∉ used ∧ 1 ≤ nid ∧ (∀ m : Int, 1 ≤ m → m < nid → m ∈ used) ∧
    (add_data data name host now).2.next_id = max (used.max?.getD 0) nid + 1 := by
  intro used nid
  have hspec := alloc_loop_spec used (used.length + 1) 1 (by
    have := List.length_filter_le (fun x => decide ((1:Int) ≤ x)) used
    omega)
  obtain ⟨h1, h2, h3⟩ := hspec
  simp only [add_data, hfresh]
  refine ⟨?_, ?_, h1, h2, h3, ?_⟩ <;> trivial

/-- C3 witness: with ids 1 and 3 in use (2 was deleted), an add receives the
reclaimed id 2 and `next_id` becomes `max(3, 2) + 1 = 4`. -/
theorem add_data_allocates_smallest_witness :
    get_server_by_name demoData3.servers "D" = none ∧
    (add_data demoData3 "D" "h" 100).1 = true ∧
    alloc_loop (usedIds demoData3.servers) ((usedIds demoData3.servers).length + 1) 1 = 2 ∧
    (add_data demoData3 "D" "h" 100).2.next_id = 4 :=
  ⟨by decide,
   (add_data_allocates_smallest demoData3 "D" "h" 100 (by decide)).1,
   by decide,
   by
    have h := (add_data_allocates_smallest demoData3 "D" "h" 100 (by decide)).2.2.2.2.2
    rw [h]; decide⟩

/-- C4: adding a server whose name exactly (case-sensitively) matches an
existing server's name is declined, and the persisted registry container is
returned unchanged: no server added, no record mutated, `next_id` untouched. -/
theorem add_data_duplicate_name_unchanged (data : RegistryData) (name host : String)
    (now : Int) (sid : String) (r : ServerRec)
    (hmem : (sid, r) ∈ data.servers) (hname : r.name = name) :
    add_data data name host now = (false, data) := by
  cases hfind : get_server_by_name data.servers name with
  | none =>
    exfalso
    unfold get_server_by_name at hfind
    rw [List.find?_eq_none] at hfind
    exact hfind (sid, r) hmem (by simp [hname])
  | some p => simp [add_data, hfind]

/-- C4 witness: adding a second server named "A" to the demo registry is
declined and leaves the container untouched. -/
theorem add_data_duplicate_name_unchanged_witness :
    ("1", demoRec 1 "A") ∈ demoData3.servers ∧ (demoRec 1 "A").name = "A" ∧
      add_data demoData3 "A" "other.com" 100 = (false, demoData3) :=
  ⟨by decide, by decide,
   add_data_duplicate_name_unchanged demoData3 "A" "other.com" 100 "1"
     (demoRec 1 "A") (by decide) (by decide)⟩

/-- C5: the cleanup sweep evicts a server iff
`max(last_success_time, latest trend bucket ts) < now - 10 days` (so either
signal inside 10 days retains it), and `last_cleanup` is set to `now` exactly
when at least one server was evicted. -/
theorem auto_cleanup_evicts_iff (data : RegistryData) (now : Int) :
    (∀ sid r, (sid, r) ∈ data.servers →
      (((sid, r) ∈ (auto_cleanup_servers data now).1) ↔
        max (r.last_success_time.getD 0) (latestTrendTs data.trends sid) <
          now - 10 * 24 * 3600)) ∧
    (∀ sid r, (sid, r) ∈ data.servers →
      (((sid, r) ∈ (auto_cleanup_servers data now).2.servers) ↔
        ¬ (max (r.last_success_time.getD 0) (latestTrendTs data.trends sid) <
          now - 10 * 24 * 3600))) ∧
    ((auto_cleanup_servers data now).2.last_cleanup =
      if (auto_cleanup_servers data now).1 = [] then data.last_cleanup else some now) := by
  have h1 : (auto_cleanup_servers data now).1 = data.servers.filter
      (fun p => effectiveLastOk p.2 data.trends p.1 <
        now - AUTO_CLEANUP_DAYS * 24 * 3600) := by
    simp only [auto_cleanup_servers]
    split <;> rfl
  have h2 : (auto_cleanup_servers data now).2.servers = data.servers.filter
      (fun p => ¬ (effectiveLastOk p.2 data.trends p.1 <
        now - AUTO_CLEANUP_DAYS * 24 * 3600)) := by
    simp only [auto_cleanup_servers]
    split <;> rfl
  refine ⟨?_, ?_, ?_⟩
  · intro sid r hmem
    rw [h1, List.mem_filter]
    simp [hmem, effectiveLastOk, AUTO_CLEANUP_DAYS]
  · intro sid r hmem
    rw [h2, List.mem_filter]
    simp only [hmem, true_and, decide_eq_true_eq, effectiveLastOk, AUTO_CLEANUP_DAYS]
  · rw [h1]
    simp only [auto_cleanup_servers]
    split
    · rename_i hEmp
      rw [List.isEmpty_iff] at hEmp
      rw [if_pos hEmp]
    · rename_i hEmp
      rw [List.isEmpty_iff] at hEmp
      rw [if_neg hEmp]

/-- C5 witness: at `now = 1000000` (cutoff 136000), server "1" (trend sample
at 500000) is retained, server "2" (both signals at 0) is evicted, and
`last_cleanup` is stamped. -/
theorem auto_cleanup_evicts_iff_witness :
    ("2", demoRec 2 "B") ∈ (auto_cleanup_servers demoCleanupData 1000000).1 ∧
    ("1", demoRec 1 "A") ∈ (auto_cleanup_servers demoCleanupData 1000000).2.servers ∧
    (auto_cleanup_servers demoCleanupData 1000000).2.last_cleanup = some 1000000 := by
  refine ⟨?_, ?_, ?_⟩
  · exact ((auto_cleanup_evicts_iff demoCleanupData 1000000).1 "2" (demoRec 2 "B")
      (by decide)).mpr (by decide)
  · exact ((auto_cleanup_evicts_iff demoCleanupData 1000000).2.1 "1" (demoRec 1 "A")
      (by decide)).mpr (by decide)
  · rw [(auto_cleanup_evicts_iff demoCleanupData 1000000).2.2, if_neg (by decide)]

/-- C6: whenever an identifier exactly matches a server id key, every
operation taking a human-supplied identifier (find, remove, record-status,
update) resolves it to that id-keyed server — names are never consulted. -/
theorem identifier_resolution_id_first (data : RegistryData) (identifier : String)
    (sid : String) (r : ServerRec)
    (hk : data.servers.find? (fun q => q.1 == identifier) = some (sid, r)) :
    resolve_identifier data.servers identifier = some (sid, r) ∧
    get_server_info data identifier = some r ∧
    del_data data identifier =
      (true, { data with servers := data.servers.eraseP (fun q => q.1 == sid) }) ∧
    (∀ (success : Bool) (now : Int),
      update_server_status data identifier success now =
        (true, { data with servers := data.servers.map (fun q =>
          if q.1 == sid then (sid,
            if success then { r with last_success_time := some now, failed_count := 0 }
            else { r with last_failed_time := some now,
                          failed_count := r.failed_count + 1 }) else q) })) ∧
    (∀ nh : String,
      update_data data identifier none (some nh) =
        (true, { data with servers := data.servers.map (fun q =>
          if q.1 == sid then (sid, { r with host := nh }) else q) })) := by
  have hres : resolve_identifier data.servers identifier = some (sid, r) := by
    unfold resolve_identifier
    rw [hk]
  refine ⟨hres, ?_, ?_, ?_, ?_⟩
  · simp [get_server_info, hres]
  · simp only [del_data, hres]
  · intro success now
    simp only [update_server_status, hres]
  · intro nh
    simp only [update_data, hres, if_neg]
    rfl

/-- C6 witness: the identifier "5" resolves to the server with id 5, not the
server named "5"; lookup returns it and delete removes it. -/
theorem identifier_resolution_id_first_witness :
    demoData5.servers.find? (fun q => q.1 == "5") = some ("5", demoRec 5 "srvA") ∧
    get_server_info demoData5 "5" = some (demoRec 5 "srvA") ∧
    (del_data demoData5 "5").2.servers = [("7", demoRec 7 "5")] := by
  have h := identifier_resolution_id_first demoData5 "5" "5" (demoRec 5 "srvA") (by decide)
  refine ⟨by decide, h.2.1, ?_⟩
  rw [h.2.2.1]
  decide

/-- C10: for a server id with no stored series, `get_trend_history` with any
positive `hours` returns the empty sequence (not the absent result); the
absent result arises exactly when reading the container raised. -/
theorem get_trend_history_missing_series (sid : String) (hours : Int) :
    (∀ data : RegistryData, data.trends.find? (fun p => p.1 == sid) = none →
      0 < hours → get_trend_history (Except.ok data) sid hours = some []) ∧
    (∀ readResult : Except String RegistryData,
      (get_trend_history readResult sid hours = none ↔
        ∃ e, readResult = Except.error e)) := by
  constructor
  · intro data hfind _
    simp [get_trend_history, hfind]
  · intro readResult
    cases readResult with
    | error e => simp [get_trend_history]
    | ok data => simp [get_trend_history]

/-- C10 witness: reading server "9" (no series) from the demo registry yields
`some []`, while a raised read yields `none`. -/
theorem get_trend_history_missing_series_witness :
    demoData3.trends.find? (fun p => p.1 == "9") = none ∧ (0:Int) < 24 ∧
    get_trend_history (Except.ok demoData3) "9" 24 = some [] ∧
    get_trend_history (Except.error "read failed") "9" 24 = none :=
  ⟨by decide, by decide,
   (get_trend_history_missing_series "9" 24).1 demoData3 (by decide) (by decide),
   ((get_trend_history_missing_series "9" 24).2 (Except.error "read failed")).mpr
     ⟨"read failed", rfl⟩⟩

lemma dict_any_key_iff {m : List (Int × Int)} {k : Int} :
    (m.any (fun p => p.1 == k) = true) ↔ k ∈ m.map (fun p => p.1) := by
  rw [List.any_eq_true]
  constructor
  · rintro ⟨p, hp, hpk⟩
    rw [beq_iff_eq] at hpk
    exact List.mem_map.mpr ⟨p, hp, hpk⟩
  · intro hk
    obtain ⟨p, hp, hpk⟩ := List.mem_map.mp hk
    exact ⟨p, hp, by simp [hpk]⟩

lemma dictLookup_cons (x : Int × Int) (rest : List (Int × Int)) (j : Int) :
    dictLookup (x :: rest) j = if x.1 = j then some x.2 else dictLookup rest j := by
  unfold dictLookup
  by_cases h : x.1 = j
  · rw [List.find?_cons_of_pos _ (by simp [h]), if_pos h]
    rfl
  · rw [List.find?_cons_of_neg _ (by simp [h]), if_neg h]

lemma dictLookup_overwrite (m : List (Int × Int)) (k v j : Int) :
    dictLookup (m.map (fun p => if p.1 == k then (k, v) else p)) j =
      if j = k then (if m.any (fun p => p.1 == k) then some v else none)
      else dictLookup m j := by
  induction m with
  | nil => by_cases hjk : j = k <;> simp [dictLookup, hjk]
  | cons a t ih =>
    simp only [List.map_cons, List.any_cons]
    by_cases hak : a.1 = k
    · have e : (if a.1 == k then (k, v) else a) = (k, v) := by simp [hak]
      rw [e, dictLookup_cons, dictLookup_cons, ih]
      by_cases hjk : j = k
      · subst hjk
        simp [hak]
      · simp [hjk, Ne.symm hjk, hak]
    · have e : (if a.1 == k then (k, v) else a) = a := by simp [hak]
      rw [e, dictLookup_cons, dictLookup_cons, ih]
      by_cases hja : a.1 = j
      · have hjk : ¬ j = k := fun h => hak (hja.trans h)
        simp [hja, hjk]
      · by_cases hjk : j = k
        · have hb : (a.1 == k) = false := by simp [hak]
          simp only [hb, Bool.false_or]
          simp [hak, hjk]
        · simp [hja, hjk]

lemma dictLookup_append_single (m : List (Int × Int)) (k v j : Int)
    (hk : ¬ (m.any (fun p => p.1 == k) = true)) :
    dictLookup (m ++ [(k, v)]) j = if j = k then some v else dictLookup m j := by
  unfold dictLookup
  rw [List.find?_append]
  by_cases hjk : j = k
  · subst hjk
    have hnone : m.find? (fun p => p.1 == j) = none := by
      rw [List.find?_eq_none]
      intro p hp hbeq
      exact hk (List.any_eq_true.mpr ⟨p, hp, hbeq⟩)
    rw [hnone]
    simp
  · cases hfind : m.find? (fun p => p.1 == j) with
    | some p => simp [hfind, hjk]
    | none =>
      simp only [hfind, Option.none_or, if_neg hjk]
      rw [List.find?_cons_of_neg _ (by simp [Ne.symm hjk]), List.find?_nil]

lemma dictLookup_dictUpsert (m : List (Int × Int)) (k v j : Int) :
    dictLookup (dictUpsert m k v) j = if j = k then some v else dictLookup m j := by
  unfold dictUpsert
  by_cases hany : m.any (fun p => p.1 == k) = true
  · rw [if_pos hany, dictLookup_overwrite, hany]
    by_cases hjk : j = k <;> simp [hjk]
  · rw [if_neg hany]
    exact dictLookup_append_single m k v j hany

lemma dictUpsert_keys (m : List (Int × Int)) (k v : Int) :
    (dictUpsert m k v).map (fun p => p.1) =
      if m.any (fun p => p.1 == k) then m.map (fun p => p.1)
      else m.map (fun p => p.1) ++ [k] := by
  unfold dictUpsert
  split
  · rw [List.map_map]
    apply List.map_congr_left
    intro p hp
    by_cases hc : p.1 = k <;> simp [hc]
  · simp

lemma mem_dictUpsert_keys {m : List (Int × Int)} {k v j : Int} :
    j ∈ (dictUpsert m k v).map (fun p => p.1) ↔
      j ∈ m.map (fun p => p.1) ∨ j = k := by
  rw [dictUpsert_keys]
  split
  · rename_i hany
    rw [dict_any_key_iff] at hany
    constructor
    · exact Or.inl
    · rintro (h | rfl)
      · exact h
      · exact hany
  · simp

lemma dictUpsert_keys_nodup {m : List (Int × Int)}
    (h : (m.map (fun p => p.1)).Nodup) (k v : Int) :
    ((dictUpsert m k v).map (fun p => p.1)).Nodup := by
  rw [dictUpsert_keys]
  split
  · exact h
  · rename_i hany
    have hk : k ∉ m.map (fun p => p.1) := fun hmem => hany (dict_any_key_iff.mpr hmem)
    rw [List.nodup_append]
    exact ⟨h, List.nodup_singleton k, by
      intro a ha hb
      simp only [List.mem_singleton] at hb
      subst hb
      exact hk ha⟩

lemma dictInsertAll_lookup (l : List (Int × Int)) :
    ∀ (m : List (Int × Int)) (j : Int),
      dictLookup (dictInsertAll m l) j = (lastVal l j).or (dictLookup m j) := by
  induction l with
  | nil =>
    intro m j
    simp [dictInsertAll, lastVal]
  | cons p tl ih =>
    intro m j
    have step : dictInsertAll m (p :: tl) = dictInsertAll (dictUpsert m p.1 p.2) tl := rfl
    rw [step, ih, dictLookup_dictUpsert]
    by_cases hjp : p.1 = j
    · have hval : lastVal (p :: tl) j = (lastVal tl j).or (some p.2) := by
        unfold lastVal
        rw [List.filter_cons_of_pos (by simp [hjp])]
        cases hft : tl.filter (fun q => q.1 == j) with
        | nil => simp
        | cons b bt => rw [List.getLast?_cons_cons]
                       cases hbl : (b :: bt).getLast? with
                       | none => simp at hbl
                       | some q => simp
      rw [hval, if_pos hjp.symm, Option.or_assoc]
      cases hmj : dictLookup m j <;> cases hlv : lastVal tl j <;> simp
    · have hval : lastVal (p :: tl) j = lastVal tl j := by
        unfold lastVal
        rw [List.filter_cons_of_neg (by simp [hjp])]
      rw [hval, if_neg (fun h => hjp h.symm)]

lemma dictInsertAll_keys_nodup (l : List (Int × Int)) :
    ∀ m : List (Int × Int), (m.map (fun p => p.1)).Nodup →
      ((dictInsertAll m l).map (fun p => p.1)).Nodup := by
  induction l with
  | nil => exact fun m h => h
  | cons p tl ih =>
    intro m h
    exact ih (dictUpsert m p.1 p.2) (dictUpsert_keys_nodup h p.1 p.2)

lemma mem_dictInsertAll_keys (l : List (Int × Int)) :
    ∀ (m : List (Int × Int)) (j : Int),
      j ∈ (dictInsertAll m l).map (fun p => p.1) ↔
        j ∈ m.map (fun p => p.1) ∨ j ∈ l.map (fun p => p.1) := by
  induction l with
  | nil =>
    intro m j
    simp [dictInsertAll]
  | cons p tl ih =>
    intro m j
    have step : dictInsertAll m (p :: tl) = dictInsertAll (dictUpsert m p.1 p.2) tl := rfl
    rw [step, ih, mem_dictUpsert_keys]
    simp only [List.map_cons, List.mem_cons]
    tauto

lemma dictLookup_mem {m : List (Int × Int)}
    (h : (m.map (fun p => p.1)).Nodup) :
    ∀ p ∈ m, dictLookup m p.1 = some p.2 := by
  induction m with
  | nil => simp
  | cons a t ih =>
    intro p hp
    simp only [List.map_cons, List.nodup_cons] at h
    rcases List.mem_cons.mp hp with rfl | hp
    · rw [dictLookup_cons, if_pos rfl]
    · have hne : a.1 ≠ p.1 := by
        intro he
        exact h.1 (he ▸ List.mem_map_of_mem (fun q => q.1) hp)
      rw [dictLookup_cons, if_neg hne]
      exact ih h.2 p hp

/-- An association list with unique keys is the graph of its lookup function
over its key list. -/
lemma assoc_as_graph {m : List (Int × Int)} (f : Int → Int)
    (hf : ∀ p ∈ m, f p.1 = p.2) :
    (m.map (fun p => p.1)).map (fun j => (j, f j)) = m := by
  rw [List.map_map]
  calc m.map ((fun j => (j, f j)) ∘ (fun p => p.1))
      = m.map id := by
        apply List.map_congr_left
        intro p hp
        have := hf p hp
        simp only [Function.comp_apply, id_eq]
        exact Prod.ext rfl (hf p hp)
    _ = m := List.map_id m

/-- Two key-sorted association lists with the same unique-keyed content are
equal. -/
lemma sorted_pairs_eq {l₁ l₂ : List (Int × Int)}
    (hperm : l₁.Perm l₂)
    (hs₁ : List.Sorted (fun a b : Int × Int => a.1 ≤ b.1) l₁)
    (hs₂ : List.Sorted (fun a b : Int × Int => a.1 ≤ b.1) l₂)
    (hn₁ : (l₁.map (fun p => p.1)).Nodup) : l₁ = l₂ := by
  have hn₂ : (l₂.map (fun p => p.1)).Nodup := ((hperm.map _).nodup) hn₁
  have hlt₁ : List.Sorted (fun a b : Int × Int => a.1 < b.1) l₁ := by
    have hne : List.Pairwise (fun a b : Int × Int => a.1 ≠ b.1) l₁ :=
      List.pairwise_map.mp hn₁
    exact (hs₁.and hne).imp (fun hab => lt_of_le_of_ne hab.1 hab.2)
  have hlt₂ : List.Sorted (fun a b : Int × Int => a.1 < b.1) l₂ := by
    have hne : List.Pairwise (fun a b : Int × Int => a.1 ≠ b.1) l₂ :=
      List.pairwise_map.mp hn₂
    exact (hs₂.and hne).imp (fun hab => lt_of_le_of_ne hab.1 hab.2)
  exact List.eq_of_perm_of_sorted hperm hlt₁ hlt₂

/-- Folding a pair sequence into a fresh dict and sorting its items yields the
graph of the last-written value over the sorted, deduplicated key list. -/
lemma sortPairs_dictInsertAll (P : List (Int × Int)) (g : Int → Int)
    (hg : ∀ j ∈ P.map (fun p => p.1), (lastVal P j).getD 0 = g j) :
    sortPairs (dictInsertAll [] P) =
      (sortInts ((P.map (fun p => p.1)).dedup)).map (fun j => (j, g j)) := by
  have hnodup : ((dictInsertAll [] P).map (fun p => p.1)).Nodup :=
    dictInsertAll_keys_nodup P [] (by simp)
  have hmem : ∀ j, j ∈ (dictInsertAll [] P).map (fun p => p.1) ↔
      j ∈ P.map (fun p => p.1) := by
    intro j
    have h := mem_dictInsertAll_keys P [] j
    simpa using h
  have hlook : ∀ j, dictLookup (dictInsertAll [] P) j = lastVal P j := by
    intro j
    have h := dictInsertAll_lookup P [] j
    simpa [dictLookup] using h
  have hvals : ∀ p ∈ dictInsertAll [] P, g p.1 = p.2 := by
    intro p hp
    have h1 : dictLookup (dictInsertAll [] P) p.1 = some p.2 :=
      dictLookup_mem hnodup p hp
    have h2 : p.1 ∈ (dictInsertAll [] P).map (fun p => p.1) :=
      List.mem_map_of_mem _ hp
    have h3 := hg p.1 ((hmem p.1).mp h2)
    rw [← h3, ← hlook p.1, h1]
    rfl
  have hgraph : ((dictInsertAll [] P).map (fun p => p.1)).map (fun j => (j, g j)) =
      dictInsertAll [] P := assoc_as_graph g hvals
  have hperm1 : (sortPairs (dictInsertAll [] P)).Perm (dictInsertAll [] P) :=
    List.perm_insertionSort _ _
  have hkeysperm : ((dictInsertAll [] P).map (fun p => p.1)).Perm
      ((P.map (fun p => p.1)).dedup) := by
    refine (List.perm_ext_iff_of_nodup hnodup (List.nodup_dedup _)).mpr ?_
    intro a
    rw [hmem a, List.mem_dedup]
  have hkeysperm2 : ((dictInsertAll [] P).map (fun p => p.1)).Perm
      (sortInts ((P.map (fun p => p.1)).dedup)) :=
    hkeysperm.trans (List.perm_insertionSort _ _).symm
  have hperm : (sortPairs (dictInsertAll [] P)).Perm
      ((sortInts ((P.map (fun p => p.1)).dedup)).map (fun j => (j, g j))) := by
    refine hperm1.trans ?_
    rw [← hgraph]
    exact hkeysperm2.map _
  have hs1 : List.Sorted (fun a b : Int × Int => a.1 ≤ b.1)
      (sortPairs (dictInsertAll [] P)) := List.sorted_insertionSort _ _
  have hsKeys : List.Sorted (fun a b : Int => a ≤ b)
      (sortInts ((P.map (fun p => p.1)).dedup)) := List.sorted_insertionSort _ _
  have hs2 : List.Sorted (fun a b : Int × Int => a.1 ≤ b.1)
      ((sortInts ((P.map (fun p => p.1)).dedup)).map (fun j => (j, g j))) :=
    List.pairwise_map.mpr hsKeys
  have hn1 : ((sortPairs (dictInsertAll [] P)).map (fun p => p.1)).Nodup :=
    ((hperm1.map (fun p => p.1)).symm).nodup hnodup
  exact sorted_pairs_eq hperm hs1 hs2 hn1

/-- C7 counterexample: the legacy fold merges by exact timestamp, not by hour
bucket.  Two legacy entries 100 seconds apart inside hour bucket 0 survive as
two separate entries instead of merging to one entry with the newer count. -/
theorem read_json_legacy_trend_counterexample :
    migrate_trend [] [⟨100, 1⟩, ⟨200, 2⟩] = [⟨100, 1⟩, ⟨200, 2⟩] ∧
    hour_bucket 100 = hour_bucket 200 ∧
    (migrate_trend [] [⟨100, 1⟩, ⟨200, 2⟩]).length = 2 := by decide

/-- C7 (amended): on first read, a legacy single-series trend field is folded
into the multi-series mapping for its server id by merging entries by exact
timestamp (an entry of the legacy history overwrites a stored entry with the
identical timestamp — the newer count wins per timestamp), sorting ascending
by timestamp, and truncating to the most recent 24 entries.  Entries in the
same hour but with different timestamps are not merged. -/
theorem read_json_legacy_trend_merge (oldHist legacyHist : List TrendEntry) :
    migrate_trend oldHist legacyHist = migrate_trend_spec oldHist legacyHist := by
  simp only [migrate_trend, migrate_trend_spec]
  have hfold : dictInsertAll (dictInsertAll [] (oldHist.map (fun h => (h.ts, h.count))))
      (legacyHist.map (fun h => (h.ts, h.count)))
      = dictInsertAll [] ((oldHist ++ legacyHist).map (fun h => (h.ts, h.count))) := by
    rw [List.map_append]
    unfold dictInsertAll
    rw [List.foldl_append]
  rw [hfold]
  have hlv : ∀ j, lastVal ((oldHist ++ legacyHist).map (fun h => (h.ts, h.count))) j
      = lastCountAt (oldHist ++ legacyHist) j := by
    intro j
    unfold lastVal lastCountAt
    rw [List.filter_map, List.getLast?_map, Option.map_map]
    rfl
  have key := sortPairs_dictInsertAll
    ((oldHist ++ legacyHist).map (fun h => (h.ts, h.count)))
    (fun t => (lastCountAt (oldHist ++ legacyHist) t).getD 0)
    (fun j _ => by rw [hlv j])
  rw [key]
  have hkeys : ((oldHist ++ legacyHist).map (fun h => (h.ts, h.count))).map
      (fun p => p.1) = (oldHist ++ legacyHist).map (fun e => e.ts) := by
    rw [List.map_map]
    rfl
  rw [hkeys, List.map_map, trimTrend_eq_drop]
  rfl

lemma head_eq_min {x : Int} {rest b : List Int}
    (hs : List.Sorted (fun a b : Int => a ≤ b) (x :: rest))
    (hmem : ∀ j, j ∈ x :: rest ↔ j ∈ b) :
    b.min? = some x := by
  rw [List.min?_eq_some_iff (fun a => le_refl a) (fun a b => min_choice a b)
    (fun a b c => le_min_iff)]
  refine ⟨(hmem x).mp (List.mem_cons_self x rest), ?_⟩
  intro y hy
  rcases List.mem_cons.mp ((hmem y).mpr hy) with rfl | hyr
  · exact le_refl y
  · exact (List.pairwise_cons.mp hs).1 y hyr

lemma last_eq_max {z : Int} {l b : List Int}
    (hl : l.getLast? = some z)
    (hs : List.Sorted (fun a b : Int => a ≤ b) l)
    (hmem : ∀ j, j ∈ l ↔ j ∈ b) :
    b.max? = some z := by
  rw [List.max?_eq_some_iff (fun a => le_refl a) (fun a b => max_choice a b)
    (fun a b c => max_le_iff)]
  obtain ⟨ys, rfl⟩ := List.getLast?_eq_some_iff.mp hl
  refine ⟨(hmem z).mp (by simp), ?_⟩
  intro y hy
  rcases List.mem_append.mp ((hmem y).mpr hy) with hyy | hyz
  · exact (List.pairwise_append.mp hs).2.2 y hyy z (by simp)
  · simp only [List.mem_singleton] at hyz
    subst hyz
    exact le_refl y

lemma fold_skip_eq :
    ∀ (l : List TrendEntry), (∀ e ∈ l, e.ts ≠ 0) → ∀ m0 : List (Int × Int),
      l.foldl (fun m d => if d.ts = 0 then m
          else dictUpsert m (hour_bucket d.ts) d.count) m0
        = dictInsertAll m0 (l.map (fun e => (hour_bucket e.ts, e.count))) := by
  intro l
  induction l with
  | nil => intro _ m0; rfl
  | cons e t ih =>
    intro hts m0
    have he : ¬ e.ts = 0 := hts e (List.mem_cons_self e t)
    simp only [List.foldl_cons, if_neg he, List.map_cons]
    exact ih (fun x hx => hts x (List.mem_cons_of_mem e hx))
      (dictUpsert m0 (hour_bucket e.ts) e.count)

/-- C8 counterexample: the renderer ignores entries whose timestamp is 0
(`if ts:`), so a non-empty history containing one does not produce the
timeline the claim describes; and for `window_hours = 0` (the code substitutes
`max(1, hours)`) the claim's clamp formula empties the timeline while the code
still renders the end bucket. -/
theorem chart_timeline_counterexample :
    chartTimeline [⟨0, 3⟩, ⟨3600, 5⟩] 24 = some ([3600], [5]) ∧
    chartTimelineClaim [⟨0, 3⟩, ⟨3600, 5⟩] 24 = ([0, 3600], [3, 5]) ∧
    chartTimeline [⟨0, 3⟩, ⟨3600, 5⟩] 24 ≠
      some (chartTimelineClaim [⟨0, 3⟩, ⟨3600, 5⟩] 24) ∧
    chartTimeline [⟨3600, 5⟩] 0 = some ([3600], [5]) ∧
    chartTimelineClaim [⟨3600, 5⟩] 0 = ([], []) := by decide

/-- C8 (amended): for every non-empty history all of whose entries have a
nonzero timestamp, and every `window_hours ≥ 1`, the renderer buckets entries
to hours (latest value per bucket), takes `[start, end]` as the min/max bucket
present, clamps `start` to `max(start, end-(window_hours-1)*3600)`, and
materialises every hourly tick in `[start, end]` inclusive with missing hours
filled with count 0. -/
theorem chart_timeline_gap_fill (history : List TrendEntry) (hrs : Int)
    (hne : history ≠ []) (hts : ∀ e ∈ history, e.ts ≠ 0) (hhrs : 1 ≤ hrs) :
    chartTimeline history hrs = some (chartTimelineClaim history hrs) := by
  have h1 : history.isEmpty = false := by
    cases history with
    | nil => exact absurd rfl hne
    | cons a l => rfl
  have hraw : chartRaw history =
      dictInsertAll [] (history.map (fun e => (hour_bucket e.ts, e.count))) :=
    fold_skip_eq history hts []
  have hkeysmem : ∀ j, j ∈ (chartRaw history).map (fun p => p.1) ↔
      j ∈ history.map (fun e => hour_bucket e.ts) := by
    intro j
    rw [hraw]
    have h := mem_dictInsertAll_keys
      (history.map (fun e => (hour_bucket e.ts, e.count))) [] j
    rw [List.map_map] at h
    simpa using h
  have hrawne : chartRaw history ≠ [] := by
    obtain ⟨a, ha⟩ := List.exists_mem_of_ne_nil history hne
    intro h0
    have hj : hour_bucket a.ts ∈ (chartRaw history).map (fun p => p.1) :=
      (hkeysmem _).mpr (List.mem_map_of_mem _ ha)
    rw [h0] at hj
    simp at hj
  have h2 : (chartRaw history).isEmpty = false := by
    cases hcr : chartRaw history with
    | nil => exact absurd hcr hrawne
    | cons a l => rfl
  have hsortmem : ∀ j, j ∈ sortInts ((chartRaw history).map (fun p => p.1)) ↔
      j ∈ history.map (fun e => hour_bucket e.ts) := by
    intro j
    unfold sortInts
    rw [(List.perm_insertionSort (fun a b : Int => a ≤ b) _).mem_iff]
    exact hkeysmem j
  have hsorted : List.Sorted (fun a b : Int => a ≤ b)
      (sortInts ((chartRaw history).map (fun p => p.1))) :=
    List.sorted_insertionSort _ _
  have hsortne : sortInts ((chartRaw history).map (fun p => p.1)) ≠ [] := by
    obtain ⟨a, ha⟩ := List.exists_mem_of_ne_nil history hne
    intro h0
    have hj : hour_bucket a.ts ∈ sortInts ((chartRaw history).map (fun p => p.1)) :=
      (hsortmem _).mpr (List.mem_map_of_mem _ ha)
    rw [h0] at hj
    simp at hj
  obtain ⟨x, rest, hxr⟩ : ∃ x rest,
      sortInts ((chartRaw history).map (fun p => p.1)) = x :: rest := by
    cases hk : sortInts ((chartRaw history).map (fun p => p.1)) with
    | nil => exact absurd hk hsortne
    | cons x rest => exact ⟨x, rest, rfl⟩
  obtain ⟨z, hz⟩ : ∃ z, (x :: rest).getLast? = some z := by
    cases hgl : (x :: rest).getLast? with
    | none => simp at hgl
    | some z => exact ⟨z, rfl⟩
  have hmin : (history.map (fun e => hour_bucket e.ts)).min? = some x :=
    head_eq_min (hxr ▸ hsorted) (fun j => hxr ▸ hsortmem j)
  have hmax : (history.map (fun e => hour_bucket e.ts)).max? = some z :=
    last_eq_max hz (hxr ▸ hsorted) (fun j => hxr ▸ hsortmem j)
  have hcounts : ∀ t : Int, (dictLookup (chartRaw history) t).getD 0 =
      (((history.filter (fun e => hour_bucket e.ts == t)).getLast?).map
        (fun e => e.count)).getD 0 := by
    intro t
    rw [hraw]
    have h := dictInsertAll_lookup
      (history.map (fun e => (hour_bucket e.ts, e.count))) [] t
    have h0 : dictLookup [] t = none := rfl
    rw [h0, Option.or_none] at h
    rw [h]
    unfold lastVal
    rw [List.filter_map, List.getLast?_map, Option.map_map]
    rfl
  have hwin : max 1 hrs = hrs := max_eq_right hhrs
  have hstart2 : ∀ s e X : Int,
      (if e - s > X then e - X else s) = max s (e - X) := by
    intro s e X
    rw [max_def]
    split <;> split <;> omega
  simp only [chartTimeline, chartTimelineClaim, h1, h2, Bool.false_eq_true,
    if_false, hxr, hwin]
  rw [hz, hmin, hmax]
  simp only [List.head?_cons, Option.getD_some]
  rw [hstart2]
  refine congrArg some (Prod.ext rfl ?_)
  apply List.map_congr_left
  intro t _
  exact hcounts t

/-- C8 witness: the spec's own example, at `H = 36000`: a 2-hour gap renders
the 3-tick timeline `[H, H+3600, H+7200]` with counts `[3, 0, 5]`. -/
theorem chart_timeline_gap_fill_witness :
    chartTimeline [⟨36000, 3⟩, ⟨43200, 5⟩] 24 =
      some (chartTimelineClaim [⟨36000, 3⟩, ⟨43200, 5⟩] 24) ∧
    chartTimelineClaim [⟨36000, 3⟩, ⟨43200, 5⟩] 24 =
      ([36000, 39600, 43200], [3, 0, 5]) :=
  ⟨chart_timeline_gap_fill [⟨36000, 3⟩, ⟨43200, 5⟩] 24 (by decide) (by decide)
    (by decide), by decide⟩

end McGetter

